import Mathlib

set_option maxHeartbeats 1000000

/-!
Shallow embedding of `src/doubly_list.rs` and `src/list.rs`.

The doubly linked list of `doubly_list.rs` keeps its nodes in
`Rc<RefCell<Node<T>>>` cells.  We embed it with an explicit arena: an
address is a natural number, a `Heap` maps each address to the cell
stored there (`none` meaning the cell has been deallocated).  The owning
strong links are the `next` fields together with the `head` anchor; the
`prev` fields and the `tail` anchor are weak links.  `Rc::into_inner`
on a detached node succeeds exactly when the strong count of its cell
is one, which in the arena reading is the condition `noOtherStrong`:
neither `head` nor any live node's `next` still points at the cell.
-/

variable {α : Type}

/-- Embeds `Node<T>` of doubly_list.rs: one element, an owning `next` link and a
weak `prev` link, both optional, given as arena addresses. -/
structure Node (α : Type) where
  data : α
  next : Option Nat
  prev : Option Nat

/-- The arena of `Rc<RefCell<Node<T>>>` cells: an address holds `some` node
while the cell is allocated and `none` once it has been deallocated. -/
abbrev Heap (α : Type) := Nat → Option (Node α)

/-- Overwrite one arena cell. -/
def hupd (h : Heap α) (a : Nat) (v : Option (Node α)) : Heap α :=
  fun b => if b = a then v else h b

/-- Embeds `LinkedList<T>` of doubly_list.rs.  `size` is the allocation bound of
the arena: fresh cells are allocated at address `size`, so every cell ever
allocated has an address below it. -/
structure LinkedList (α : Type) where
  heap : Heap α
  size : Nat
  head : Option Nat
  tail : Option Nat

/-- Embeds `Weak::upgrade` composed with the `Option` around the weak reference:
a weak address upgrades iff its cell is still allocated. -/
def upgrade (h : Heap α) : Option Nat → Option Nat
  | none => none
  | some a =>
    match h a with
    | some _ => some a
    | none => none

/-- Success condition of `Rc::into_inner(old)` for the cell at address `a`,
after the chain has been rewired: the local binding must be the only
strong reference left, i.e. neither the `head` anchor `hd` nor the `next`
field of any live cell still points at `a`. -/
def noOtherStrong (h : Heap α) (n : Nat) (hd : Option Nat) (a : Nat) : Bool :=
  (hd != some a) && (List.range n).all (fun b =>
    match h b with
    | some nd => nd.next != some a
    | none => true)

/-- Embeds `LinkedList::new`. -/
def LinkedList.new : LinkedList α :=
  { heap := fun _ => none, size := 0, head := none, tail := none }

/-- Embeds `LinkedList::push_front`. -/
def LinkedList.push_front (s : LinkedList α) (val : α) : LinkedList α :=
  match s.head with
  | none =>
    { heap := hupd s.heap s.size (some { data := val, next := none, prev := none }),
      size := s.size + 1, head := some s.size, tail := some s.size }
  | some old_head =>
    let heap1 := hupd s.heap s.size
      (some { data := val, next := some old_head, prev := none })
    let heap2 :=
      match heap1 old_head with
      | some nd => hupd heap1 old_head (some { nd with prev := some s.size })
      | none => heap1
    { heap := heap2, size := s.size + 1, head := some s.size, tail := s.tail }

/-- Embeds `LinkedList::pop_front`.  The intermediate state `st1` is the list after
the rewiring; the final `noOtherStrong` test is `Rc::into_inner`, whose
failure (`?`) makes the function return `None` with the rewiring already
done and the detached cell still allocated. -/
def LinkedList.pop_front (s : LinkedList α) : Option α × LinkedList α :=
  match s.head with
  | none => (none, s)
  | some a =>
    match s.heap a with
    | none => (none, s)
    | some nd =>
      let heap1 := hupd s.heap a (some { nd with next := none })
      let st1 : LinkedList α :=
        match nd.next with
        | some b =>
          match heap1 b with
          | some bd =>
            { heap := hupd heap1 b (some { bd with prev := none }),
              size := s.size, head := nd.next, tail := s.tail }
          | none =>
            { heap := heap1, size := s.size, head := nd.next, tail := s.tail }
        | none =>
          { heap := heap1, size := s.size, head := none, tail := none }
      if noOtherStrong st1.heap s.size st1.head a then
        (some nd.data, { st1 with heap := hupd st1.heap a none })
      else
        (none, st1)

/-- Embeds `LinkedList::push_back`.  The guard is `self.tail.take().and_then(upgrade)`;
in the else-branch both anchors are overwritten with the fresh cell. -/
def LinkedList.push_back (s : LinkedList α) (val : α) : LinkedList α :=
  match upgrade s.heap s.tail with
  | none =>
    { heap := hupd s.heap s.size (some { data := val, next := none, prev := none }),
      size := s.size + 1, head := some s.size, tail := some s.size }
  | some old_tail =>
    let heap1 := hupd s.heap s.size
      (some { data := val, next := none, prev := some old_tail })
    let heap2 :=
      match heap1 old_tail with
      | some nd => hupd heap1 old_tail (some { nd with next := some s.size })
      | none => heap1
    { heap := heap2, size := s.size + 1, head := s.head, tail := some s.size }

/-- Embeds `LinkedList::pop_back`.  `self.tail.take()` leaves `tail` cleared when the
weak anchor fails to upgrade; otherwise the new tail is the detached node's
`prev`, the new tail's `next` is cleared when that weak link upgrades, and
the final `noOtherStrong` test is `Rc::into_inner`. -/
def LinkedList.pop_back (s : LinkedList α) : Option α × LinkedList α :=
  match upgrade s.heap s.tail with
  | none => (none, { s with tail := none })
  | some t =>
    match s.heap t with
    | none => (none, { s with tail := none })
    | some nd =>
      let heap1 := hupd s.heap t (some { nd with prev := none })
      let st1 : LinkedList α :=
        match nd.prev with
        | some w =>
          match heap1 w with
          | some wd =>
            { heap := hupd heap1 w (some { wd with next := none }),
              size := s.size, head := s.head, tail := nd.prev }
          | none =>
            { heap := heap1, size := s.size, head := s.head, tail := nd.prev }
        | none =>
          { heap := heap1, size := s.size, head := none, tail := none }
      if noOtherStrong st1.heap s.size st1.head t then
        (some nd.data, { st1 with heap := hupd st1.heap t none })
      else
        (none, st1)

/-- Embeds `Cursor<'a, T>` of doubly_list.rs.  The Rust cursor exclusively borrows
its parent list for its whole lifetime, so we let the embedded cursor own
the list state; dropping the cursor is projecting `list` back out. -/
structure Cursor (α : Type) where
  list : LinkedList α
  current : Option Nat

/-- Embeds `LinkedList::cursor_front`: a cursor positioned at `head` (off-list when
the list is empty). -/
def LinkedList.cursor_front (s : LinkedList α) : Cursor α :=
  { list := s, current := s.head }

/-- Embeds `Cursor::peek_mut`, read direction: the element currently under the
cursor, `none` when the cursor is off-list. -/
def Cursor.peek_mut (c : Cursor α) : Option α :=
  c.current.bind (fun a => (c.list.heap a).map (fun nd => nd.data))

/-- Writing through the mutable reference returned by `Cursor::peek_mut`
(`*cursor.peek_mut().unwrap() = v`): the write lands in the live cell of
the chain; when the cursor is off-list `peek_mut` returns `None` and no
write happens. -/
def Cursor.write (c : Cursor α) (v : α) : Cursor α :=
  match c.current with
  | none => c
  | some a =>
    match c.list.heap a with
    | none => c
    | some nd =>
      { c with list := { c.list with heap := hupd c.list.heap a (some { nd with data := v }) } }

/-- Embeds `Cursor::next`: step to the current node's `next` (off-list stays
off-list), then return `peek_mut` of the new position. -/
def Cursor.next (c : Cursor α) : Cursor α × Option α :=
  let c1 : Cursor α :=
    { c with current := c.current.bind (fun a => (c.list.heap a).bind (fun nd => nd.next)) }
  (c1, c1.peek_mut)

/-- Embeds `Cursor::prev` is `todo!()` in the source: every call panics with the
message `not yet implemented`, modelled as an `Except.error`. -/
def Cursor.prev (_c : Cursor α) : Except String (Cursor α × Option α) :=
  .error "not yet implemented"

/-- Embeds `Cursor::take` is `todo!()` in the source: every call panics. -/
def Cursor.take (_c : Cursor α) : Except String (Option α × Cursor α) :=
  .error "not yet implemented"

/-- Embeds `Cursor::insert_after` is `todo!()` in the source: every call panics. -/
def Cursor.insert_after (_c : Cursor α) (_element : α) : Except String (Cursor α) :=
  .error "not yet implemented"

/-- Embeds `Cursor::insert_before` is `todo!()` in the source: every call panics. -/
def Cursor.insert_before (_c : Cursor α) (_element : α) : Except String (Cursor α) :=
  .error "not yet implemented"

/-- Pop at most `n` elements off the front, collecting the values returned
before the first `None`. -/
def drainN : LinkedList α → Nat → List α × LinkedList α
  | s, 0 => ([], s)
  | s, n + 1 =>
    match s.pop_front with
    | (none, s1) => ([], s1)
    | (some v, s1) =>
      let r := drainN s1 n
      (v :: r.1, r.2)

/-- One push call of either kind. -/
inductive PushOp (α : Type) where
  | front (v : α)
  | back (v : α)

/-- Run one push call on the embedded list. -/
def applyPush (s : LinkedList α) : PushOp α → LinkedList α
  | .front v => s.push_front v
  | .back v => s.push_back v

/-- Run a sequence of push calls on the embedded list. -/
def applyPushes (s : LinkedList α) (ops : List (PushOp α)) : LinkedList α :=
  ops.foldl applyPush s

/-- The front-to-back order a push call establishes: `push_front` prepends,
`push_back` appends. -/
def modelPush (l : List α) : PushOp α → List α
  | .front v => v :: l
  | .back v => l ++ [v]

/-- The front-to-back order a sequence of push calls establishes. -/
def modelPushes (l : List α) (ops : List (PushOp α)) : List α :=
  ops.foldl modelPush l

/-- One implemented cursor operation: a `next()` step or a write through
`peek_mut` (the operations of the source that complete; the `todo!()`
stubs never complete). -/
inductive COp (α : Type) where
  | move
  | write (v : α)

/-- Run one cursor operation. -/
def Cursor.applyOp (c : Cursor α) : COp α → Cursor α
  | .move => (c.next).1
  | .write v => c.write v

/-- Run a sequence of cursor operations. -/
def Cursor.applyOps (c : Cursor α) (ops : List (COp α)) : Cursor α :=
  ops.foldl Cursor.applyOp c

/-- The list states reachable through the public API of doubly_list.rs:
`new`, the four push/pop operations, and a full cursor session
(`cursor_front`, any sequence of completing cursor operations, drop). -/
inductive ReachL : LinkedList α → Prop where
  | new : ReachL LinkedList.new
  | push_front (s : LinkedList α) (v : α) : ReachL s → ReachL (s.push_front v)
  | push_back (s : LinkedList α) (v : α) : ReachL s → ReachL (s.push_back v)
  | pop_front (s : LinkedList α) : ReachL s → ReachL (s.pop_front).2
  | pop_back (s : LinkedList α) : ReachL s → ReachL (s.pop_back).2
  | cursor (s : LinkedList α) (ops : List (COp α)) :
      ReachL s → ReachL ((s.cursor_front.applyOps ops).list)

/-!  The singly linked list of `src/list.rs`.  Its forward chain is a plain
exclusively owned `Option<Box<Node<T>>>` structure, embedded as the
inductive `NodeChain` (`.nil` is `None`, `.node d rest` is
`Some(Box::new(Node { data: d, next: rest }))`).  -/

/-- The owned `Option<Box<Node<T>>>` chain of list.rs. -/
inductive NodeChain (α : Type) where
  | nil : NodeChain α
  | node (data : α) (next : NodeChain α) : NodeChain α

/-- Number of nodes reachable by following `next` from the start of a chain. -/
def NodeChain.length : NodeChain α → Nat
  | .nil => 0
  | .node _ rest => rest.length + 1

/-- Embeds `List<T>` of list.rs (named `SList` here because `List` is taken by
Lean's own list type): the owned head chain plus the cached `len` field. -/
structure SList (α : Type) where
  head : NodeChain α
  len : Nat

/-- Embeds `List::new`. -/
def SList.new : SList α := { head := .nil, len := 0 }

/-- Embeds `List::push_front`: increments `len`, then makes the new node the head. -/
def SList.push_front (s : SList α) (val : α) : SList α :=
  { head := .node val s.head, len := s.len + 1 }

/-- Embeds `List::pop_front`: `None` on an empty list; otherwise decrements `len`,
advances `head` and returns the detached element. -/
def SList.pop_front (s : SList α) : Option α × SList α :=
  match s.head with
  | .nil => (none, s)
  | .node d rest => (some d, { head := rest, len := s.len - 1 })

/-- Embeds `List::clear`: resets `head` and `len`. -/
def SList.clear (_s : SList α) : SList α := { head := .nil, len := 0 }

/-- The states reachable through the mutating public API of list.rs
(`new`, `push_front`, `pop_front`, `clear`; `peek_front`, `iter` and
friends do not change the state). -/
inductive SReach : SList α → Prop where
  | new : SReach SList.new
  | push_front (s : SList α) (v : α) : SReach s → SReach (s.push_front v)
  | pop_front (s : SList α) : SReach s → SReach (s.pop_front).2
  | clear (s : SList α) : SReach s → SReach s.clear

/-!  The chain predicate used to state the structural invariants.
`Seg h e p c addrs vs` says: starting at link `c`, following `next`
traverses exactly the cells at `addrs` holding the values `vs`, each
cell's `prev` names the address the traversal came from (`p` before the
first cell), and the `next` field of the last cell is `e` (the link `c`
itself when the segment is empty). -/

/-- The end link `p` reaches after walking a list of addresses: the last
address, or `p` itself for the empty list. -/
def endLink (p : Option Nat) : List Nat → Option Nat
  | [] => p
  | a :: l => endLink (some a) l

/-- A doubly linked segment in the arena; see the section comment. -/
inductive Seg (h : Heap α) (e : Option Nat) :
    Option Nat → Option Nat → List Nat → List α → Prop where
  | nil (p : Option Nat) : Seg h e p e [] []
  | cons {p : Option Nat} {a : Nat} {nd : Node α} {l : List Nat} {vs : List α}
      (ha : h a = some nd) (hp : nd.prev = p)
      (hs : Seg h e (some a) nd.next l vs) :
      Seg h e p (some a) (a :: l) (nd.data :: vs)

/-- The full structural invariant of a `LinkedList` state, indexed by the
front-to-back element list `vs`: following `next` from `head` traverses a
duplicate-free chain of cells ending in `next = none`, every cell's `prev`
names its predecessor, `tail` is the last chain address, every allocated
address is below `size`, and a cell is allocated iff it is on the chain. -/
def InvL (s : LinkedList α) (vs : List α) : Prop :=
  ∃ addrs : List Nat,
    Seg s.heap none none s.head addrs vs ∧
    addrs.Nodup ∧
    s.tail = endLink none addrs ∧
    (∀ a ∈ addrs, a < s.size) ∧
    (∀ a : Nat, (s.heap a).isSome ↔ a ∈ addrs)

/-- A cursor position is either off-list or a live cell. -/
def CursorOk (c : Cursor α) : Prop :=
  ∀ a : Nat, c.current = some a → (c.list.heap a).isSome

/-!  Basic lemmas about the arena and the chain predicate. -/

theorem hupd_self (h : Heap α) (a : Nat) (v : Option (Node α)) : hupd h a v a = v := by
  simp [hupd]

theorem hupd_ne (h : Heap α) {a b : Nat} (v : Option (Node α)) (hne : b ≠ a) :
    hupd h a v b = h b := by
  simp [hupd, hne]

theorem endLink_append (l1 l2 : List Nat) (p : Option Nat) :
    endLink p (l1 ++ l2) = endLink (endLink p l1) l2 := by
  induction l1 generalizing p with
  | nil => rfl
  | cons a l ih => simp [endLink, ih]

theorem endLink_snoc (l : List Nat) (p : Option Nat) (t : Nat) :
    endLink p (l ++ [t]) = some t := by
  rw [endLink_append]; rfl

theorem endLink_isSome (l : List Nat) (a : Nat) : ∃ b, endLink (some a) l = some b := by
  induction l generalizing a with
  | nil => exact ⟨a, rfl⟩
  | cons x l ih => exact ih x

theorem endLink_mem (l : List Nat) (p : Option Nat) (b : Nat)
    (h : endLink p l = some b) : p = some b ∨ b ∈ l := by
  induction l generalizing p with
  | nil => exact Or.inl h
  | cons a l ih =>
    rcases ih (some a) h with h1 | h1
    · have hab : a = b := Option.some_inj.mp h1
      subst hab
      right; simp
    · right; simp [h1]

theorem seg_list_nil {h : Heap α} {e p c : Option Nat} {vs : List α}
    (hs : Seg h e p c [] vs) : vs = [] ∧ c = e := by
  cases hs; exact ⟨rfl, rfl⟩

theorem seg_list_cons {h : Heap α} {e p c : Option Nat} {a : Nat} {l : List Nat} {vs : List α}
    (hs : Seg h e p c (a :: l) vs) :
    ∃ (nd : Node α) (vs1 : List α), c = some a ∧ vs = nd.data :: vs1 ∧
      h a = some nd ∧ nd.prev = p ∧ Seg h e (some a) nd.next l vs1 := by
  cases hs with
  | cons ha hp hsub => exact ⟨_, _, rfl, rfl, ha, hp, hsub⟩

theorem seg_none_inv {h : Heap α} {e p : Option Nat} {l : List Nat} {vs : List α}
    (hs : Seg h e p none l vs) : l = [] ∧ vs = [] ∧ e = none := by
  cases hs; exact ⟨rfl, rfl, rfl⟩

theorem seg_vs_nil {h : Heap α} {e p c : Option Nat} {l : List Nat}
    (hs : Seg h e p c l []) : l = [] ∧ c = e := by
  cases hs; exact ⟨rfl, rfl⟩

theorem Seg_congr {h h' : Heap α} {e p c : Option Nat} {l : List Nat} {vs : List α}
    (hs : Seg h e p c l vs) (hagree : ∀ b ∈ l, h' b = h b) :
    Seg h' e p c l vs := by
  induction hs with
  | nil p => exact Seg.nil p
  | cons ha hp hsub ih =>
    refine Seg.cons ?_ hp (ih (fun b hb => hagree b (by simp [hb])))
    rw [hagree _ (by simp)]; exact ha

theorem Seg_append {h : Heap α} {m e p c : Option Nat} {l1 l2 : List Nat}
    {vs1 vs2 : List α}
    (h1 : Seg h m p c l1 vs1) (h2 : Seg h e (endLink p l1) m l2 vs2) :
    Seg h e p c (l1 ++ l2) (vs1 ++ vs2) := by
  induction h1 with
  | nil p => exact h2
  | cons ha hp hsub ih => exact Seg.cons ha hp (ih h2)

theorem Seg_snoc_view {h : Heap α} {e p c : Option Nat} {L : List Nat} {vs : List α}
    (hs : Seg h e p c L vs) :
    (L = [] ∧ vs = [] ∧ c = e) ∨
    ∃ (init : List Nat) (t : Nat) (nd : Node α) (vs0 : List α),
      L = init ++ [t] ∧ vs = vs0 ++ [nd.data] ∧ h t = some nd ∧ nd.next = e ∧
      nd.prev = endLink p init ∧ Seg h (some t) p c init vs0 := by
  induction hs with
  | nil p => exact Or.inl ⟨rfl, rfl, rfl⟩
  | @cons p a nd l vs1 ha hp hsub ih =>
    right
    rcases ih with ⟨rfl, rfl, hne⟩ | ⟨init, t, nd1, vs0, rfl, rfl, ht, hnx, hpv, hseg⟩
    · exact ⟨[], a, nd, [], rfl, rfl, ha, hne, hp, Seg.nil p⟩
    · exact ⟨a :: init, t, nd1, nd.data :: vs0, rfl, rfl, ht, hnx, hpv,
        Seg.cons ha hp hseg⟩

theorem Seg_next_of_mem {h : Heap α} {e p c : Option Nat} {L : List Nat} {vs : List α}
    (hs : Seg h e p c L vs) {b : Nat} (hb : b ∈ L) :
    ∃ nd : Node α, h b = some nd ∧
      ((endLink p L = some b ∧ nd.next = e) ∨
        ∃ x, nd.next = some x ∧ List.Sublist [b, x] L) := by
  induction hs with
  | nil p => simp at hb
  | @cons p a nd l vs1 ha hp hsub ih =>
    rcases List.mem_cons.1 hb with rfl | hbl
    · refine ⟨nd, ha, ?_⟩
      cases l with
      | nil =>
        rcases seg_list_nil hsub with ⟨-, hne⟩
        exact Or.inl ⟨rfl, hne⟩
      | cons x l1 =>
        rcases seg_list_cons hsub with ⟨-, -, hcx, -, -, -, -⟩
        right
        exact ⟨x, hcx, List.Sublist.cons₂ _ (List.Sublist.cons₂ _ (List.nil_sublist l1))⟩
    · rcases ih hbl with ⟨ndb, hndb, hcase⟩
      refine ⟨ndb, hndb, ?_⟩
      rcases hcase with ⟨hend, hnx⟩ | ⟨x, hnx, hsl⟩
      · exact Or.inl ⟨hend, hnx⟩
      · exact Or.inr ⟨x, hnx, hsl.cons a⟩

theorem Seg_update_data {h : Heap α} {e p c : Option Nat} {L : List Nat} {vs : List α}
    (hs : Seg h e p c L vs) (a : Nat) (nd : Node α) (v : α) (ha : h a = some nd) :
    ∃ vs1 : List α,
      Seg (hupd h a (some { nd with data := v })) e p c L vs1 := by
  induction hs with
  | nil p => exact ⟨[], Seg.nil p⟩
  | @cons p b ndb l vs0 hb hp hsub ih =>
    rcases ih with ⟨vs1, hseg⟩
    by_cases hba : b = a
    · subst hba
      have hnd : ndb = nd := by rw [hb] at ha; exact (Option.some_inj.1 ha)
      subst hnd
      refine ⟨v :: vs1, ?_⟩
      have hget : hupd h b (some { ndb with data := v }) b = some { ndb with data := v } :=
        hupd_self h b _
      exact Seg.cons hget hp hseg
    · refine ⟨ndb.data :: vs1, ?_⟩
      have hget : hupd h a (some { nd with data := v }) b = some ndb := by
        rw [hupd_ne h _ hba]; exact hb
      exact Seg.cons hget hp hseg

theorem noOtherStrong_true {h : Heap α} {n : Nat} {hd : Option Nat} {a : Nat}
    (h1 : hd ≠ some a)
    (h2 : ∀ b, b < n → ∀ nd : Node α, h b = some nd → nd.next ≠ some a) :
    noOtherStrong h n hd a = true := by
  unfold noOtherStrong
  rw [Bool.and_eq_true]
  constructor
  · exact bne_iff_ne.2 h1
  · rw [List.all_eq_true]
    intro b hb
    rw [List.mem_range] at hb
    cases hnd : h b with
    | none => simp
    | some nd =>
      simp only []
      exact bne_iff_ne.2 (h2 b hb nd hnd)

theorem mem_of_pair_sublist {b x : Nat} {L : List Nat}
    (hs : List.Sublist [b, x] L) : x ∈ L :=
  hs.subset (by simp)

theorem not_pair_sublist_head {a b : Nat} {l : List Nat}
    (hnd : (a :: l).Nodup) (hs : List.Sublist [b, a] (a :: l)) : False := by
  rcases List.nodup_cons.1 hnd with ⟨hal, -⟩
  cases hs with
  | cons _ h1 => exact hal (mem_of_pair_sublist h1)
  | cons₂ _ h1 => exact hal (h1.subset (by simp))

theorem new_invL : InvL (LinkedList.new : LinkedList α) [] := by
  refine ⟨[], Seg.nil none, by simp, rfl, by simp, ?_⟩
  intro a
  simp [LinkedList.new]

theorem singleton_invL (s : LinkedList α) (v : α)
    (hdead : ∀ a : Nat, s.heap a = none) :
    InvL { heap := hupd s.heap s.size (some { data := v, next := none, prev := none }),
           size := s.size + 1, head := some s.size, tail := some s.size } [v] := by
  refine ⟨[s.size], ?_, by simp, rfl, by simp, ?_⟩
  · exact Seg.cons (hupd_self _ _ _) rfl (Seg.nil _)
  · intro b
    dsimp only
    by_cases hb : b = s.size
    · subst hb; simp [hupd_self]
    · rw [hupd_ne _ _ hb]
      simp only [List.mem_singleton, hdead b]
      simp [hb]

theorem alive_of_invL_nil {s : LinkedList α}
    (halive : ∀ a : Nat, (s.heap a).isSome ↔ a ∈ ([] : List Nat)) (a : Nat) :
    s.heap a = none := by
  have h1 := (halive a).not
  simp at h1
  exact Option.not_isSome_iff_eq_none.1 (by simp [h1])

theorem push_front_invL {s : LinkedList α} {vs : List α} (v : α)
    (h : InvL s vs) : InvL (s.push_front v) (v :: vs) := by
  obtain ⟨addrs, hseg, hnd, htl, hbd, halive⟩ := h
  cases hh : s.head with
  | none =>
    rw [hh] at hseg
    obtain ⟨rfl, rfl, -⟩ := seg_none_inv hseg
    simp only [LinkedList.push_front, hh]
    exact singleton_invL s v (alive_of_invL_nil halive)
  | some h0 =>
    rw [hh] at hseg
    cases hseg with
    | @cons p a nd l vs1 ha hp hsub =>
      have hlt0 : h0 < s.size := hbd h0 (by simp)
      have hne0 : h0 ≠ s.size := Nat.ne_of_lt hlt0
      have hk : hupd s.heap s.size (some { data := v, next := some h0, prev := none }) h0
          = some nd := by rw [hupd_ne _ _ hne0]; exact ha
      simp only [LinkedList.push_front, hh, hk]
      refine ⟨s.size :: h0 :: l, ?_, ?_, ?_, ?_, ?_⟩
      · have hg1 : hupd (hupd s.heap s.size (some { data := v, next := some h0, prev := none })) h0
            (some { nd with prev := some s.size }) s.size
            = some { data := v, next := some h0, prev := none } := by
          rw [hupd_ne _ _ (Ne.symm hne0)]
          exact hupd_self _ _ _
        have hg2 : hupd (hupd s.heap s.size (some { data := v, next := some h0, prev := none })) h0
            (some { nd with prev := some s.size }) h0
            = some { nd with prev := some s.size } := hupd_self _ _ _
        have hsub2 : Seg (hupd (hupd s.heap s.size
              (some { data := v, next := some h0, prev := none })) h0
            (some { nd with prev := some s.size })) none (some h0) nd.next l vs1 := by
          refine Seg_congr hsub ?_
          intro b hb
          have hbne0 : b ≠ h0 := by
            intro hbe; subst hbe; exact (List.nodup_cons.1 hnd).1 hb
          have hbnes : b ≠ s.size := Nat.ne_of_lt (hbd b (by simp [hb]))
          rw [hupd_ne _ _ hbne0, hupd_ne _ _ hbnes]
        have hinner : Seg (hupd (hupd s.heap s.size
              (some { data := v, next := some h0, prev := none })) h0
            (some { nd with prev := some s.size })) none (some s.size) (some h0) (h0 :: l)
            (({ nd with prev := some s.size } : Node α).data :: vs1) :=
          Seg.cons hg2 rfl hsub2
        exact Seg.cons hg1 rfl hinner
      · refine List.nodup_cons.2 ⟨?_, hnd⟩
        intro hmem
        exact absurd (hbd s.size hmem) (Nat.lt_irrefl _)
      · exact htl
      · intro a2 ha2
        rcases List.mem_cons.1 ha2 with h1 | h1
        · subst h1; exact Nat.lt_succ_self _
        · exact Nat.lt_succ_of_lt (hbd a2 h1)
      · intro b
        dsimp only
        by_cases hbs : b = s.size
        · subst hbs
          rw [hupd_ne _ _ (Ne.symm hne0), hupd_self]
          simp
        · by_cases hbh : b = h0
          · subst hbh
            rw [hupd_self]
            simp
          · rw [hupd_ne _ _ hbh, hupd_ne _ _ hbs]
            rw [halive b]
            simp [List.mem_cons, hbs]

theorem Seg_append_eq {h : Heap α} {m e p q c : Option Nat} {l1 l2 : List Nat}
    {vs1 vs2 : List α}
    (h1 : Seg h m p c l1 vs1) (hq : endLink p l1 = q) (h2 : Seg h e q m l2 vs2) :
    Seg h e p c (l1 ++ l2) (vs1 ++ vs2) :=
  Seg_append h1 (by rw [hq]; exact h2)

theorem push_back_invL {s : LinkedList α} {vs : List α} (v : α)
    (h : InvL s vs) : InvL (s.push_back v) (vs ++ [v]) := by
  obtain ⟨addrs, hseg, hnd, htl, hbd, halive⟩ := h
  rcases Seg_snoc_view hseg with ⟨rfl, rfl, -⟩ |
    ⟨init, t, nd, vs0, rfl, rfl, ht, hnx, hpv, hseg0⟩
  · have htl2 : s.tail = none := htl
    simp only [LinkedList.push_back, htl2, upgrade]
    exact singleton_invL s v (alive_of_invL_nil halive)
  · have htl2 : s.tail = some t := by rw [htl]; exact endLink_snoc _ _ _
    have htmem : t ∈ init ++ [t] := by simp
    have htlt : t < s.size := hbd t htmem
    have htne : t ≠ s.size := Nat.ne_of_lt htlt
    have hupg : upgrade s.heap s.tail = some t := by
      rw [htl2]; simp [upgrade, ht]
    have hk : hupd s.heap s.size (some { data := v, next := none, prev := some t }) t
        = some nd := by rw [hupd_ne _ _ htne]; exact ht
    simp only [LinkedList.push_back, hupg, hk]
    have htnotinit : t ∉ init := by
      rcases List.nodup_append.1 hnd with ⟨-, -, hdisj⟩
      intro hmem
      exact hdisj hmem (by simp)
    refine ⟨init ++ [t] ++ [s.size], ?_, ?_, ?_, ?_, ?_⟩
    · have hsegA : Seg (hupd (hupd s.heap s.size
            (some { data := v, next := none, prev := some t })) t
          (some { nd with next := some s.size })) (some t) none s.head init vs0 := by
        refine Seg_congr hseg0 ?_
        intro b hb
        have hbnet : b ≠ t := by
          intro hbe; subst hbe; exact htnotinit hb
        have hbnes : b ≠ s.size := Nat.ne_of_lt (hbd b (by simp [hb]))
        rw [hupd_ne _ _ hbnet, hupd_ne _ _ hbnes]
      have hsegB : Seg (hupd (hupd s.heap s.size
            (some { data := v, next := none, prev := some t })) t
          (some { nd with next := some s.size })) (some s.size) (endLink none init) (some t)
          [t] [({ nd with next := some s.size } : Node α).data] := by
        refine Seg.cons (hupd_self _ _ _) hpv ?_
        exact Seg.nil _
      have hseg1 : Seg (hupd (hupd s.heap s.size
            (some { data := v, next := none, prev := some t })) t
          (some { nd with next := some s.size })) (some s.size) none s.head
          (init ++ [t]) (vs0 ++ [({ nd with next := some s.size } : Node α).data]) :=
        Seg_append_eq hsegA rfl hsegB
      have hseg2 : Seg (hupd (hupd s.heap s.size
            (some { data := v, next := none, prev := some t })) t
          (some { nd with next := some s.size })) none (some t) (some s.size)
          [s.size] [({ data := v, next := none, prev := some t } : Node α).data] := by
        refine Seg.cons ?_ rfl (Seg.nil _)
        rw [hupd_ne _ _ (Ne.symm htne)]
        exact hupd_self _ _ _
      exact Seg_append_eq hseg1 (endLink_snoc _ _ _) hseg2
    · rw [List.nodup_append]
      refine ⟨hnd, by simp, ?_⟩
      intro b hb hb2
      rw [List.mem_singleton] at hb2
      subst hb2
      exact absurd (hbd _ hb) (Nat.lt_irrefl _)
    · exact (endLink_snoc _ _ _).symm
    · intro a2 ha2
      rcases List.mem_append.1 ha2 with h1 | h1
      · exact Nat.lt_succ_of_lt (hbd a2 h1)
      · rw [List.mem_singleton] at h1
        subst h1
        exact Nat.lt_succ_self _
    · intro b
      dsimp only
      by_cases hbs : b = s.size
      · subst hbs
        rw [hupd_ne _ _ (Ne.symm htne), hupd_self]
        simp
      · by_cases hbt : b = t
        · subst hbt
          rw [hupd_self]
          simp [htmem]
        · rw [hupd_ne _ _ hbt, hupd_ne _ _ hbs]
          rw [halive b]
          simp [List.mem_append, List.mem_singleton, hbs]

theorem pop_front_nilL {s : LinkedList α} (h : InvL s []) : s.pop_front = (none, s) := by
  obtain ⟨addrs, hseg, -, -, -, -⟩ := h
  obtain ⟨rfl, hc⟩ := seg_vs_nil hseg
  simp only [LinkedList.pop_front, hc]

theorem pop_front_someL {s : LinkedList α} {v : α} {vs : List α}
    (h : InvL s (v :: vs)) :
    (s.pop_front).1 = some v ∧ InvL (s.pop_front).2 vs := by
  obtain ⟨addrs, hseg, hnd, htl, hbd, halive⟩ := h
  cases addrs with
  | nil => exact absurd (seg_list_nil hseg).1 (by simp)
  | cons a l =>
    obtain ⟨nd, vs1, hc, hveq, ha, hp, hsub⟩ := seg_list_cons hseg
    injection hveq with hv1 hv2
    subst hv1
    subst hv2
    have hanotl : a ∉ l := (List.nodup_cons.1 hnd).1
    have hnoback : ∀ b, b ∈ (a :: l) → ∀ ndb : Node α,
        s.heap b = some ndb → ndb.next ≠ some a := by
      intro b hbmem ndb hndb hcontra
      rcases Seg_next_of_mem hseg hbmem with ⟨nd2, hnd2, hcase⟩
      rw [hndb] at hnd2
      obtain rfl : ndb = nd2 := Option.some_inj.1 hnd2
      rcases hcase with ⟨-, hnxe⟩ | ⟨x, hnx2, hsl⟩
      · rw [hcontra] at hnxe
        cases hnxe
      · rw [hcontra] at hnx2
        obtain rfl : x = a := (Option.some_inj.1 hnx2).symm
        exact not_pair_sublist_head hnd hsl
    cases l with
    | nil =>
      obtain ⟨rfl, hnx⟩ := seg_list_nil hsub
      have hno : noOtherStrong (hupd s.heap a (some { nd with next := none }))
          s.size none a = true := by
        refine noOtherStrong_true (by simp) ?_
        intro b hb ndb hndb
        by_cases hba : b = a
        · subst hba
          rw [hupd_self] at hndb
          obtain rfl : ndb = { nd with next := none } := (Option.some_inj.1 hndb).symm
          simp
        · rw [hupd_ne _ _ hba] at hndb
          have hmem : b ∈ [a] := (halive b).1 (by simp [hndb])
          rw [List.mem_singleton] at hmem
          exact absurd hmem hba
      simp only [LinkedList.pop_front, hc, ha, hnx, hno, if_true]
      refine ⟨by trivial, [], Seg.nil none, by simp, rfl, by simp, ?_⟩
      intro b
      dsimp only
      by_cases hba : b = a
      · subst hba
        rw [hupd_self]
        simp
      · rw [hupd_ne _ _ hba, hupd_ne _ _ hba]
        have h1 := (halive b).not
        simp only [List.mem_singleton] at h1
        simp only [List.not_mem_nil, iff_false]
        intro hiss
        exact absurd ((halive b).1 hiss) (by simp [hba])
    | cons b0 l2 =>
      obtain ⟨nd0, vs2, hnx, hveq2, hb0, hp0, hsub2⟩ := seg_list_cons hsub
      subst hveq2
      have hb0ne : b0 ≠ a := by
        intro hbe; subst hbe; exact hanotl (by simp)
      have hk1 : hupd s.heap a (some { nd with next := none }) b0 = some nd0 := by
        rw [hupd_ne _ _ hb0ne]; exact hb0
      have hno : noOtherStrong
          (hupd (hupd s.heap a (some { nd with next := none })) b0
            (some { nd0 with prev := none }))
          s.size (some b0) a = true := by
        refine noOtherStrong_true (by simp [hb0ne]) ?_
        intro b hb ndb hndb
        by_cases hbb0 : b = b0
        · subst hbb0
          rw [hupd_self] at hndb
          obtain rfl : ndb = { nd0 with prev := none } := (Option.some_inj.1 hndb).symm
          exact hnoback b (by simp) nd0 hb0
        · rw [hupd_ne _ _ hbb0] at hndb
          by_cases hba : b = a
          · subst hba
            rw [hupd_self] at hndb
            obtain rfl : ndb = { nd with next := none } := (Option.some_inj.1 hndb).symm
            simp
          · rw [hupd_ne _ _ hba] at hndb
            exact hnoback b ((halive b).1 (by simp [hndb])) ndb hndb
      simp only [LinkedList.pop_front, hc, ha, hnx, hk1, hno, if_true]
      refine ⟨by trivial, b0 :: l2, ?_, ?_, ?_, ?_, ?_⟩
      · have hgb0 : hupd (hupd (hupd s.heap a (some { nd with next := none })) b0
            (some { nd0 with prev := none })) a none b0 = some { nd0 with prev := none } := by
          rw [hupd_ne _ _ hb0ne]
          exact hupd_self _ _ _
        have hsub3 : Seg (hupd (hupd (hupd s.heap a (some { nd with next := none })) b0
            (some { nd0 with prev := none })) a none) none (some b0) nd0.next l2 vs2 := by
          refine Seg_congr hsub2 ?_
          intro b hb
          have hbne : b ≠ a := by
            intro hbe; subst hbe; exact hanotl (by simp [hb])
          have hbne0 : b ≠ b0 := by
            intro hbe; subst hbe
            exact (List.nodup_cons.1 (List.nodup_cons.1 hnd).2).1 hb
          rw [hupd_ne _ _ hbne, hupd_ne _ _ hbne0, hupd_ne _ _ hbne]
        have hfin : Seg (hupd (hupd (hupd s.heap a (some { nd with next := none })) b0
            (some { nd0 with prev := none })) a none) none none (some b0) (b0 :: l2)
            (({ nd0 with prev := none } : Node α).data :: vs2) :=
          Seg.cons hgb0 rfl hsub3
        exact hfin
      · exact (List.nodup_cons.1 hnd).2
      · exact htl
      · intro a2 ha2
        exact hbd a2 (by simp [ha2])
      · intro b
        dsimp only
        by_cases hba : b = a
        · subst hba
          rw [hupd_self]
          simp only [Option.isSome_none, Bool.false_eq_true, false_iff]
          intro hmem
          exact hanotl hmem
        · rw [hupd_ne _ _ hba]
          by_cases hbb0 : b = b0
          · subst hbb0
            rw [hupd_self]
            simp
          · rw [hupd_ne _ _ hbb0, hupd_ne _ _ hba]
            rw [halive b]
            simp [List.mem_cons, hba]

theorem seg_head_mem {h : Heap α} {e p c : Option Nat} {l : List Nat} {vs : List α}
    (hs : Seg h e p c l vs) (hne : l ≠ []) : ∃ u, c = some u ∧ u ∈ l := by
  cases l with
  | nil => exact absurd rfl hne
  | cons x l2 =>
    obtain ⟨-, -, hc, -, -, -, -⟩ := seg_list_cons hs
    exact ⟨x, hc, by simp⟩

theorem pop_back_nilL {s : LinkedList α} (h : InvL s []) : s.pop_back = (none, s) := by
  obtain ⟨sh, sn, shd, stl⟩ := s
  obtain ⟨addrs, hseg, -, htl, -, -⟩ := h
  obtain ⟨rfl, -⟩ := seg_vs_nil hseg
  have htl2 : stl = none := htl
  subst htl2
  simp only [LinkedList.pop_back, upgrade]

theorem pop_back_someL {s : LinkedList α} {v : α} {vs : List α}
    (h : InvL s (vs ++ [v])) :
    (s.pop_back).1 = some v ∧ InvL (s.pop_back).2 vs := by
  obtain ⟨addrs, hseg, hnd, htl, hbd, halive⟩ := h
  rcases Seg_snoc_view hseg with ⟨-, habs, -⟩ |
    ⟨init, t, nd, vs0, rfl, hveq, ht, hnx, hpv, hseg0⟩
  · exact absurd habs (by simp)
  · obtain ⟨hvs0, hvv⟩ := List.append_inj' hveq rfl
    subst hvs0
    have hv : nd.data = v := by
      injection hvv with h1 h2
      exact h1.symm
    have htl2 : s.tail = some t := by rw [htl]; exact endLink_snoc _ _ _
    have hupg : upgrade s.heap s.tail = some t := by
      rw [htl2]; simp [upgrade, ht]
    have htnotinit : t ∉ init := by
      rcases List.nodup_append.1 hnd with ⟨-, -, hdisj⟩
      intro hmem
      exact hdisj hmem (by simp)
    rcases Seg_snoc_view hseg0 with ⟨rfl, rfl, hhd⟩ |
      ⟨init2, w, pd, vs1, rfl, rfl, hpd, hpdnx, hpdpv, hseg1⟩
    · -- the popped node was the only node
      have hpv2 : nd.prev = none := hpv
      have hno : noOtherStrong (hupd s.heap t (some { nd with prev := none }))
          s.size none t = true := by
        refine noOtherStrong_true (by simp) ?_
        intro b hb ndb hndb
        by_cases hbt : b = t
        · subst hbt
          rw [hupd_self] at hndb
          obtain rfl : ndb = { nd with prev := none } := (Option.some_inj.1 hndb).symm
          simp [hnx]
        · rw [hupd_ne _ _ hbt] at hndb
          have hmem : b ∈ [t] := by
            have := (halive b).1 (by simp [hndb])
            simpa using this
          rw [List.mem_singleton] at hmem
          exact absurd hmem hbt
      simp only [LinkedList.pop_back, hupg, ht, hpv2, hno, if_true]
      refine ⟨by simp [hv], [], Seg.nil none, by simp, rfl, by simp, ?_⟩
      intro b
      dsimp only
      by_cases hbt : b = t
      · subst hbt
        rw [hupd_self]
        simp
      · rw [hupd_ne _ _ hbt, hupd_ne _ _ hbt]
        simp only [List.not_mem_nil, iff_false]
        intro hiss
        have hmem := (halive b).1 hiss
        simp only [List.nil_append, List.mem_singleton] at hmem
        exact absurd hmem hbt
    · -- a predecessor remains and becomes the new tail
      have hwmem : w ∈ init2 ++ [w] := by simp
      have hwt : w ≠ t := by
        intro hwe; subst hwe; exact htnotinit hwmem
      have hpv2 : nd.prev = some w := by
        rw [hpv]; exact endLink_snoc _ _ _
      have hk1 : hupd s.heap t (some { nd with prev := none }) w = some pd := by
        rw [hupd_ne _ _ hwt]; exact hpd
      have hinit_nodup : (init2 ++ [w]).Nodup := (List.nodup_append.1 hnd).1
      have hwnotinit2 : w ∉ init2 := by
        rcases List.nodup_append.1 hinit_nodup with ⟨-, -, hdisj⟩
        intro hmem
        exact hdisj hmem (by simp)
      have hnott : ∀ b ∈ init2 ++ [w], b ≠ t := by
        intro b hb hbe; subst hbe; exact htnotinit hb
      obtain ⟨u, hu, humem⟩ := seg_head_mem hseg0 (by simp)
      have hno : noOtherStrong
          (hupd (hupd s.heap t (some { nd with prev := none })) w
            (some { pd with next := none }))
          s.size s.head t = true := by
        refine noOtherStrong_true ?_ ?_
        · rw [hu]
          intro hcontra
          exact hnott u humem (Option.some_inj.1 hcontra)
        · intro b hb ndb hndb
          by_cases hbw : b = w
          · subst hbw
            rw [hupd_self] at hndb
            obtain rfl : ndb = { pd with next := none } := (Option.some_inj.1 hndb).symm
            simp
          · rw [hupd_ne _ _ hbw] at hndb
            by_cases hbt : b = t
            · subst hbt
              rw [hupd_self] at hndb
              obtain rfl : ndb = { nd with prev := none } := (Option.some_inj.1 hndb).symm
              simp [hnx]
            · rw [hupd_ne _ _ hbt] at hndb
              have hmem : b ∈ (init2 ++ [w]) ++ [t] := (halive b).1 (by simp [hndb])
              have hmem2 : b ∈ init2 ++ [w] := by
                rcases List.mem_append.1 hmem with h1 | h1
                · exact h1
                · rw [List.mem_singleton] at h1
                  exact absurd h1 hbt
              rcases Seg_next_of_mem hseg0 hmem2 with ⟨nd2, hnd2, hcase⟩
              rw [hndb] at hnd2
              obtain rfl : ndb = nd2 := Option.some_inj.1 hnd2
              rcases hcase with ⟨hend, hnxe⟩ | ⟨x, hnx2, hsl⟩
              · rw [endLink_snoc] at hend
                exact absurd (Option.some_inj.1 hend) (Ne.symm hbw)
              · intro hcontra
                rw [hcontra] at hnx2
                obtain rfl : x = t := (Option.some_inj.1 hnx2).symm
                exact htnotinit (mem_of_pair_sublist hsl)
      simp only [LinkedList.pop_back, hupg, ht, hpv2, hk1, hno, if_true]
      refine ⟨by simp [hv], init2 ++ [w], ?_, hinit_nodup, ?_, ?_, ?_⟩
      · have hsegA : Seg (hupd (hupd (hupd s.heap t (some { nd with prev := none })) w
            (some { pd with next := none })) t none) (some w) none s.head init2 vs1 := by
          refine Seg_congr hseg1 ?_
          intro b hb
          have hbt : b ≠ t := hnott b (List.mem_append.2 (Or.inl hb))
          have hbw : b ≠ w := by
            intro hbe; subst hbe; exact hwnotinit2 hb
          rw [hupd_ne _ _ hbt, hupd_ne _ _ hbw, hupd_ne _ _ hbt]
        have hsegB : Seg (hupd (hupd (hupd s.heap t (some { nd with prev := none })) w
            (some { pd with next := none })) t none) none (endLink none init2) (some w)
            [w] [({ pd with next := none } : Node α).data] := by
          refine Seg.cons ?_ hpdpv (Seg.nil _)
          rw [hupd_ne _ _ hwt]
          exact hupd_self _ _ _
        exact Seg_append_eq hsegA rfl hsegB
      · exact (endLink_snoc _ _ _).symm
      · intro a2 ha2
        exact hbd a2 (List.mem_append.2 (Or.inl ha2))
      · intro b
        dsimp only
        by_cases hbt : b = t
        · subst hbt
          rw [hupd_self]
          simp only [Option.isSome_none, Bool.false_eq_true, false_iff]
          exact htnotinit
        · rw [hupd_ne _ _ hbt]
          by_cases hbw : b = w
          · subst hbw
            rw [hupd_self]
            simp [hwmem]
          · rw [hupd_ne _ _ hbw, hupd_ne _ _ hbt]
            rw [halive b]
            constructor
            · intro hmem
              rcases List.mem_append.1 hmem with h1 | h1
              · exact h1
              · rw [List.mem_singleton] at h1
                exact absurd h1 hbt
            · intro hmem
              exact List.mem_append.2 (Or.inl hmem)

theorem cursor_front_ok {s : LinkedList α} {vs : List α} (h : InvL s vs) :
    CursorOk s.cursor_front := by
  obtain ⟨addrs, hseg, -, -, -, -⟩ := h
  intro a hca
  have hhd : s.head = some a := hca
  cases addrs with
  | nil =>
    rw [(seg_list_nil hseg).2] at hhd
    cases hhd
  | cons x l =>
    obtain ⟨nd, vs1, hc, -, hx, -, -⟩ := seg_list_cons hseg
    rw [hc] at hhd
    obtain rfl : x = a := Option.some_inj.1 hhd
    simp [LinkedList.cursor_front, hx]

theorem cursor_next_ok {c : Cursor α} {vs : List α} (hI : InvL c.list vs) :
    (c.next).1.list = c.list ∧ CursorOk (c.next).1 := by
  refine ⟨rfl, ?_⟩
  intro a2 hca
  obtain ⟨addrs, hseg, -, -, -, halive⟩ := hI
  have hca2 : c.current.bind (fun a => (c.list.heap a).bind (fun nd => nd.next))
      = some a2 := hca
  rcases hc : c.current with _ | a
  · rw [hc] at hca2
    cases hca2
  · rw [hc] at hca2
    have hca3 : (c.list.heap a).bind (fun nd => nd.next) = some a2 := hca2
    rcases hh : c.list.heap a with _ | nd
    · rw [hh] at hca3
      cases hca3
    · rw [hh] at hca3
      have hca4 : nd.next = some a2 := hca3
      have hamem : a ∈ addrs := (halive a).1 (by simp [hh])
      rcases Seg_next_of_mem hseg hamem with ⟨nd2, hnd2, hcase⟩
      rw [hh] at hnd2
      obtain rfl : nd = nd2 := Option.some_inj.1 hnd2
      rcases hcase with ⟨-, hnxe⟩ | ⟨x, hnx2, hsl⟩
      · rw [hnxe] at hca4
        cases hca4
      · rw [hnx2] at hca4
        have hxa : x = a2 := Option.some_inj.1 hca4
        rw [← hxa]
        exact (halive x).2 (mem_of_pair_sublist hsl)

theorem cursor_write_inv {c : Cursor α} {vs : List α} (v : α)
    (hI : InvL c.list vs) (hok : CursorOk c) :
    (∃ vs1, InvL (c.write v).list vs1) ∧ CursorOk (c.write v) := by
  rcases hc : c.current with _ | a
  · simp only [Cursor.write, hc]
    exact ⟨⟨vs, hI⟩, hok⟩
  · rcases hh : c.list.heap a with _ | nd
    · simp only [Cursor.write, hc, hh]
      exact ⟨⟨vs, hI⟩, hok⟩
    · simp only [Cursor.write, hc, hh]
      obtain ⟨addrs, hseg, hnd, htl, hbd, halive⟩ := hI
      constructor
      · obtain ⟨vs1, hseg2⟩ := Seg_update_data hseg a nd v hh
        refine ⟨vs1, addrs, hseg2, hnd, htl, hbd, ?_⟩
        intro b
        dsimp only
        by_cases hba : b = a
        · subst hba
          rw [hupd_self]
          simp only [Option.isSome_some, true_iff]
          exact (halive b).1 (by simp [hh])
        · rw [hupd_ne _ _ hba]
          exact halive b
      · intro a2 hca2
        have hca3 : some a = some a2 := hca2
        obtain rfl : a = a2 := Option.some_inj.1 hca3
        dsimp only
        rw [hupd_self]
        simp

theorem applyOp_inv {c : Cursor α} (op : COp α)
    (h : (∃ vs, InvL c.list vs) ∧ CursorOk c) :
    (∃ vs, InvL (c.applyOp op).list vs) ∧ CursorOk (c.applyOp op) := by
  obtain ⟨⟨vs, hI⟩, hok⟩ := h
  cases op with
  | move =>
    obtain ⟨hl, hok2⟩ := cursor_next_ok hI
    exact ⟨⟨vs, by rw [(show (Cursor.applyOp c COp.move).list = (c.next).1.list from rfl), hl]; exact hI⟩, hok2⟩
  | write v =>
    exact cursor_write_inv v hI hok

theorem applyOps_inv {c : Cursor α} (ops : List (COp α))
    (h : (∃ vs, InvL c.list vs) ∧ CursorOk c) :
    (∃ vs, InvL (c.applyOps ops).list vs) ∧ CursorOk (c.applyOps ops) := by
  induction ops generalizing c with
  | nil => exact h
  | cons op ops ih => exact ih (applyOp_inv op h)

theorem reach_invL {s : LinkedList α} (h : ReachL s) : ∃ vs, InvL s vs := by
  induction h with
  | new => exact ⟨[], new_invL⟩
  | push_front s v hs ih =>
    obtain ⟨vs, hI⟩ := ih
    exact ⟨v :: vs, push_front_invL v hI⟩
  | push_back s v hs ih =>
    obtain ⟨vs, hI⟩ := ih
    exact ⟨vs ++ [v], push_back_invL v hI⟩
  | pop_front s hs ih =>
    obtain ⟨vs, hI⟩ := ih
    cases vs with
    | nil =>
      refine ⟨[], ?_⟩
      rw [pop_front_nilL hI]
      exact hI
    | cons v vs1 =>
      exact ⟨vs1, (pop_front_someL hI).2⟩
  | pop_back s hs ih =>
    obtain ⟨vs, hI⟩ := ih
    rcases vs.eq_nil_or_concat with rfl | ⟨l0, v0, rfl⟩
    · refine ⟨[], ?_⟩
      rw [pop_back_nilL hI]
      exact hI
    · rw [List.concat_eq_append] at hI
      exact ⟨l0, (pop_back_someL hI).2⟩
  | cursor s ops hs ih =>
    obtain ⟨vs, hI⟩ := ih
    exact (applyOps_inv ops ⟨⟨vs, hI⟩, cursor_front_ok hI⟩).1

theorem applyPushes_invL {s : LinkedList α} {vs : List α} (ops : List (PushOp α))
    (h : InvL s vs) : InvL (applyPushes s ops) (modelPushes vs ops) := by
  induction ops generalizing s vs with
  | nil => exact h
  | cons op ops ih =>
    cases op with
    | front v => exact ih (push_front_invL v h)
    | back v => exact ih (push_back_invL v h)

theorem drainN_invL {s : LinkedList α} {vs : List α} (h : InvL s vs) :
    (drainN s vs.length).1 = vs ∧ InvL (drainN s vs.length).2 [] := by
  induction vs generalizing s with
  | nil => exact ⟨rfl, h⟩
  | cons v vs1 ih =>
    obtain ⟨h1, h2⟩ := pop_front_someL h
    rcases hps : s.pop_front with ⟨r1, s2⟩
    rw [hps] at h1 h2
    dsimp only at h1 h2
    subst h1
    obtain ⟨ih1, ih2⟩ := ih h2
    constructor
    · show (drainN s (vs1.length + 1)).1 = v :: vs1
      simp only [drainN, hps, ih1]
    · show InvL (drainN s (vs1.length + 1)).2 []
      simp only [drainN, hps]
      exact ih2

theorem sreach_len {s : SList α} (h : SReach s) : s.len = s.head.length := by
  induction h with
  | new => rfl
  | push_front s v hs ih =>
    show s.len + 1 = (NodeChain.node v s.head).length
    simp only [NodeChain.length]
    rw [ih]
  | pop_front s hs ih =>
    cases hh : s.head with
    | nil =>
      simp only [SList.pop_front, hh]
      rw [ih, hh]
    | node d rest =>
      simp only [SList.pop_front, hh]
      rw [ih, hh]
      simp [NodeChain.length]
  | clear s hs ih => rfl

/-- Claim C1: after every public operation on a `LinkedList` (`new`, the four
push/pop operations, and any completing `Cursor` operation), the structural
invariants hold: following `next` from `head` visits every live node exactly
once and terminates (the chain `addrs` is duplicate-free and covers exactly
the allocated cells), the unique node with `next` absent is the node `tail`
refers to (`tail` is the chain's end link), every node's `prev` refers to its
predecessor (all part of `Seg`), and `head` is absent iff `tail` is absent
iff the element list is empty. -/
theorem claim_C1_structural_invariants (s : LinkedList α) (hs : ReachL s) :
    ∃ (addrs : List Nat) (vs : List α),
      Seg s.heap none none s.head addrs vs ∧
      addrs.Nodup ∧
      s.tail = endLink none addrs ∧
      (∀ a : Nat, (s.heap a).isSome ↔ a ∈ addrs) ∧
      (s.head = none ↔ s.tail = none) ∧
      (s.head = none ↔ vs = []) := by
  obtain ⟨vs, addrs, hseg, hnd, htl, hbd, halive⟩ := reach_invL hs
  refine ⟨addrs, vs, hseg, hnd, htl, halive, ?_, ?_⟩
  · constructor
    · intro hh
      have hseg2 := hseg
      rw [hh] at hseg2
      obtain ⟨rfl, rfl, -⟩ := seg_none_inv hseg2
      exact htl
    · intro ht2
      cases addrs with
      | nil => exact (seg_list_nil hseg).2
      | cons x l =>
        obtain ⟨w, hw⟩ := endLink_isSome l x
        rw [ht2] at htl
        have hnone : (none : Option Nat) = some w := by
          rw [htl]
          exact hw
        cases hnone
  · constructor
    · intro hh
      have hseg2 := hseg
      rw [hh] at hseg2
      exact (seg_none_inv hseg2).2.1
    · intro hv
      subst hv
      exact (seg_vs_nil hseg).2

/-- Witness for C1 at the empty list. -/
theorem claim_C1_witness :
    ∃ (addrs : List Nat) (vs : List Nat),
      Seg (LinkedList.new : LinkedList Nat).heap none none
        (LinkedList.new : LinkedList Nat).head addrs vs ∧
      addrs.Nodup ∧
      (LinkedList.new : LinkedList Nat).tail = endLink none addrs ∧
      (∀ a : Nat, ((LinkedList.new : LinkedList Nat).heap a).isSome ↔ a ∈ addrs) ∧
      ((LinkedList.new : LinkedList Nat).head = none ↔
        (LinkedList.new : LinkedList Nat).tail = none) ∧
      ((LinkedList.new : LinkedList Nat).head = none ↔ vs = []) :=
  claim_C1_structural_invariants LinkedList.new ReachL.new

/-- Claim C2: for every finite interleaving of `push_back` and `push_front`
calls on a sequence starting empty, repeatedly calling `pop_front` yields
exactly the elements in the front-to-back order the pushes established
(`push_front` prepends, `push_back` appends), followed by no element once
exhausted. -/
theorem claim_C2_mixed_pushes_pop_front_order (ops : List (PushOp α)) :
    (drainN (applyPushes LinkedList.new ops) (modelPushes [] ops).length).1
      = modelPushes [] ops ∧
    ((drainN (applyPushes LinkedList.new ops)
        (modelPushes [] ops).length).2.pop_front).1 = none := by
  have hI := applyPushes_invL ops new_invL
  obtain ⟨h1, h2⟩ := drainN_invL hI
  refine ⟨h1, ?_⟩
  rw [pop_front_nilL h2]

/-- Claim C3: a mutation made through the cursor's `peek_mut` view hits the
live chain: after positioning a cursor at the front of `[1,2,3]`, writing
`10` through `peek_mut` and discarding the cursor, draining via `pop_front`
yields `10, 2, 3`. -/
theorem claim_C3_cursor_write_persists :
    (let s : LinkedList Nat := ((LinkedList.new.push_back 1).push_back 2).push_back 3
     let s2 := ((s.cursor_front).write 10).list
     let p1 := s2.pop_front
     let p2 := p1.2.pop_front
     let p3 := p2.2.pop_front
     let p4 := p3.2.pop_front
     p1.1 = some 10 ∧ p2.1 = some 2 ∧ p3.1 = some 3 ∧ p4.1 = none) := by
  decide

/-- Claim C4: on `[1,2,3]` with a cursor at the front, repeated `next()`
returns `2`, then `3`, then no element when stepping past the last node;
and a `next()` call on any off-list cursor leaves the cursor unchanged
(off-list, same underlying list) and returns no element. -/
theorem claim_C4_next_steps_and_off_list_stable (c : Cursor α)
    (hoff : c.current = none) :
    (let c0 := ((((LinkedList.new : LinkedList Nat).push_back 1).push_back 2).push_back 3).cursor_front
     let n1 := c0.next
     let n2 := n1.1.next
     let n3 := n2.1.next
     let n4 := n3.1.next
     n1.2 = some 2 ∧ n2.2 = some 3 ∧ n3.2 = none ∧ n3.1.current = none ∧
     n4.2 = none ∧ n4.1.current = none) ∧
    (c.next).2 = none ∧ (c.next).1 = c := by
  obtain ⟨cl, cc⟩ := c
  have hcc : cc = none := hoff
  subst hcc
  exact ⟨by decide, rfl, rfl⟩

/-- Witness for C4 at the cursor over the empty list. -/
theorem claim_C4_witness :
    ((LinkedList.new : LinkedList Nat).cursor_front).current = none ∧
    ((let c0 := ((((LinkedList.new : LinkedList Nat).push_back 1).push_back 2).push_back 3).cursor_front
      let n1 := c0.next
      let n2 := n1.1.next
      let n3 := n2.1.next
      let n4 := n3.1.next
      n1.2 = some 2 ∧ n2.2 = some 3 ∧ n3.2 = none ∧ n3.1.current = none ∧
      n4.2 = none ∧ n4.1.current = none) ∧
     (((LinkedList.new : LinkedList Nat).cursor_front).next).2 = none ∧
     (((LinkedList.new : LinkedList Nat).cursor_front).next).1
       = (LinkedList.new : LinkedList Nat).cursor_front) :=
  ⟨rfl, claim_C4_next_steps_and_off_list_stable _ rfl⟩

/-- Counterexample to claim C5 as stated: `prev`, `take`, `insert_after` and
`insert_before` do not complete without panicking on a concrete cursor; they
are `todo!()` stubs whose every call panics (modelled as `Except.error`). -/
theorem claim_C5_counterexample :
    (((LinkedList.new : LinkedList Nat).cursor_front).prev).isOk = false ∧
    (((LinkedList.new : LinkedList Nat).cursor_front).take).isOk = false ∧
    (((LinkedList.new : LinkedList Nat).cursor_front).insert_after 0).isOk = false ∧
    (((LinkedList.new : LinkedList Nat).cursor_front).insert_before 0).isOk = false := by
  decide

/-- Claim C5 as amended: the implemented cursor operations `peek_mut` and
`next` complete without panicking (off-list they return no element), while
`prev`, `take`, `insert_after` and `insert_before` are unimplemented
`todo!()` placeholders that panic on every call. -/
theorem claim_C5_amended_stub_semantics (c : Cursor α) (v : α)
    (hoff : c.current = none) :
    (c.prev).isOk = false ∧ (c.take).isOk = false ∧
    (c.insert_after v).isOk = false ∧ (c.insert_before v).isOk = false ∧
    c.peek_mut = none ∧ (c.next).2 = none := by
  obtain ⟨cl, cc⟩ := c
  have hcc : cc = none := hoff
  subst hcc
  exact ⟨rfl, rfl, rfl, rfl, rfl, rfl⟩

/-- Witness for the amended C5 at the cursor over the empty list. -/
theorem claim_C5_witness :
    ((LinkedList.new : LinkedList Nat).cursor_front).current = none ∧
    ((((LinkedList.new : LinkedList Nat).cursor_front).prev).isOk = false ∧
     (((LinkedList.new : LinkedList Nat).cursor_front).take).isOk = false ∧
     (((LinkedList.new : LinkedList Nat).cursor_front).insert_after 0).isOk = false ∧
     (((LinkedList.new : LinkedList Nat).cursor_front).insert_before 0).isOk = false ∧
     ((LinkedList.new : LinkedList Nat).cursor_front).peek_mut = none ∧
     (((LinkedList.new : LinkedList Nat).cursor_front).next).2 = none) :=
  ⟨rfl, claim_C5_amended_stub_semantics _ 0 rfl⟩

/-- Claim C6: on every non-empty list reachable through the public API,
`pop_front` and `pop_back` succeed and recover the front resp. back element;
the `Rc::into_inner` failure branch is never taken. -/
theorem claim_C6_pop_succeeds_on_nonempty (s : LinkedList α) (hs : ReachL s)
    (hne : s.head ≠ none) :
    ∃ (vs l0 l1 : List α) (v0 v1 : α),
      InvL s vs ∧ vs = v0 :: l0 ∧ vs = l1 ++ [v1] ∧
      (s.pop_front).1 = some v0 ∧ (s.pop_back).1 = some v1 := by
  obtain ⟨vs, hI⟩ := reach_invL hs
  cases vs with
  | nil =>
    obtain ⟨addrs, hseg, -, -, -, -⟩ := hI
    obtain ⟨rfl, hc⟩ := seg_vs_nil hseg
    exact absurd hc hne
  | cons v0 l0 =>
    have h1 := pop_front_someL hI
    rcases (v0 :: l0).eq_nil_or_concat with habs | ⟨l1, v1, hsnoc⟩
    · cases habs
    · rw [List.concat_eq_append] at hsnoc
      have h2 := pop_back_someL (hsnoc ▸ hI)
      exact ⟨v0 :: l0, l0, l1, v0, v1, hI, rfl, hsnoc, h1.1, h2.1⟩

/-- Witness for C6 at the one-element list `push_back 1`. -/
theorem claim_C6_witness :
    ∃ (vs l0 l1 : List Nat) (v0 v1 : Nat),
      InvL ((LinkedList.new : LinkedList Nat).push_back 1) vs ∧
      vs = v0 :: l0 ∧ vs = l1 ++ [v1] ∧
      (((LinkedList.new : LinkedList Nat).push_back 1).pop_front).1 = some v0 ∧
      (((LinkedList.new : LinkedList Nat).push_back 1).pop_back).1 = some v1 :=
  claim_C6_pop_succeeds_on_nonempty _ (ReachL.push_back _ 1 ReachL.new) (by decide)

/-- Claim C7: absence is the only failure signal and it is side-effect free:
`pop_front` and `pop_back` on an empty list return no element and leave the
list unchanged, and `peek_mut` and `next` on an off-list cursor return no
element and leave both the cursor and its list unchanged. -/
theorem claim_C7_absence_is_side_effect_free (s : LinkedList α) (c : Cursor α)
    (hh : s.head = none) (ht : s.tail = none) (hoff : c.current = none) :
    s.pop_front = (none, s) ∧ s.pop_back = (none, s) ∧
    c.peek_mut = none ∧ (c.next).2 = none ∧ (c.next).1 = c := by
  obtain ⟨sh, sn, shd, stl⟩ := s
  obtain ⟨cl, cc⟩ := c
  have h1 : shd = none := hh
  have h2 : stl = none := ht
  have h3 : cc = none := hoff
  subst h1
  subst h2
  subst h3
  refine ⟨rfl, ?_, rfl, rfl, rfl⟩
  simp [LinkedList.pop_back, upgrade]

/-- Witness for C7 at the empty list and its cursor. -/
theorem claim_C7_witness :
    (LinkedList.new : LinkedList Nat).head = none ∧
    (LinkedList.new : LinkedList Nat).tail = none ∧
    ((LinkedList.new : LinkedList Nat).cursor_front).current = none ∧
    ((LinkedList.new : LinkedList Nat).pop_front = (none, LinkedList.new) ∧
     (LinkedList.new : LinkedList Nat).pop_back = (none, LinkedList.new) ∧
     ((LinkedList.new : LinkedList Nat).cursor_front).peek_mut = none ∧
     (((LinkedList.new : LinkedList Nat).cursor_front).next).2 = none ∧
     (((LinkedList.new : LinkedList Nat).cursor_front).next).1
       = (LinkedList.new : LinkedList Nat).cursor_front) :=
  ⟨rfl, rfl, rfl, claim_C7_absence_is_side_effect_free _ _ rfl rfl rfl⟩

/-- Claim C8: back-end symmetry: after `push_back 1; push_back 2;
push_back 3` on the empty list, successive `pop_back` calls return `3`,
`2`, `1`, and a further `pop_back` returns no element. -/
theorem claim_C8_pop_back_lifo :
    (let s := (((LinkedList.new : LinkedList Nat).push_back 1).push_back 2).push_back 3
     let p1 := s.pop_back
     let p2 := p1.2.pop_back
     let p3 := p2.2.pop_back
     let p4 := p3.2.pop_back
     p1.1 = some 3 ∧ p2.1 = some 2 ∧ p3.1 = some 1 ∧ p4.1 = none) := by
  decide

/-- Claim C9: after popping a list empty from both ends, new pushes rebuild
correct anchors: push back 1, 2; pop_front gives 1, pop_back gives 2,
pop_front gives none; then `push_front 3; push_back 4; push_front 5` gives
front-to-back `[5,3,4]`, so pop_front gives 5, pop_back gives 4, pop_front
gives 3, and a final pop_back gives none. -/
theorem claim_C9_refill_after_exhaustion :
    (let s := ((LinkedList.new : LinkedList Nat).push_back 1).push_back 2
     let p1 := s.pop_front
     let p2 := p1.2.pop_back
     let p3 := p2.2.pop_front
     let s2 := ((p3.2.push_front 3).push_back 4).push_front 5
     let q1 := s2.pop_front
     let q2 := q1.2.pop_back
     let q3 := q2.2.pop_front
     let q4 := q3.2.pop_back
     p1.1 = some 1 ∧ p2.1 = some 2 ∧ p3.1 = none ∧
     q1.1 = some 5 ∧ q2.1 = some 4 ∧ q3.1 = some 3 ∧ q4.1 = none) := by
  decide

/-- Claim C10: in the singly linked list of list.rs, `len` always equals
the number of nodes reachable by following `next` from `head`: it is 0 for
a new list, `push_front` increases it by exactly one, `pop_front` decreases
it by exactly one on a non-empty list and leaves it 0 on an empty list, and
`clear` resets it to 0 with `head` absent. -/
theorem claim_C10_len_matches_chain (s : SList α) (v : α) (hs : SReach s) :
    s.len = s.head.length ∧
    (SList.new : SList α).len = 0 ∧
    (s.push_front v).len = s.len + 1 ∧
    (s.head ≠ NodeChain.nil → (s.pop_front).2.len + 1 = s.len) ∧
    (s.head = NodeChain.nil → (s.pop_front).2 = s ∧ (s.pop_front).2.len = 0) ∧
    s.clear.len = 0 ∧ s.clear.head = NodeChain.nil := by
  have hinv := sreach_len hs
  refine ⟨hinv, rfl, rfl, ?_, ?_, rfl, rfl⟩
  · intro hne
    cases hh : s.head with
    | nil => exact absurd hh hne
    | node d rest =>
      simp only [SList.pop_front, hh]
      rw [hinv, hh]
      simp [NodeChain.length]
  · intro hnil
    simp only [SList.pop_front, hnil]
    refine ⟨by trivial, ?_⟩
    rw [hinv, hnil]
    rfl

/-- Witness for C10 at the empty list. -/
theorem claim_C10_witness :
    (SList.new : SList Nat).len = (SList.new : SList Nat).head.length ∧
    (SList.new : SList Nat).len = 0 ∧
    ((SList.new : SList Nat).push_front 0).len = (SList.new : SList Nat).len + 1 ∧
    ((SList.new : SList Nat).head ≠ NodeChain.nil →
      ((SList.new : SList Nat).pop_front).2.len + 1 = (SList.new : SList Nat).len) ∧
    ((SList.new : SList Nat).head = NodeChain.nil →
      ((SList.new : SList Nat).pop_front).2 = SList.new ∧
      ((SList.new : SList Nat).pop_front).2.len = 0) ∧
    (SList.new : SList Nat).clear.len = 0 ∧
    (SList.new : SList Nat).clear.head = NodeChain.nil :=
  claim_C10_len_matches_chain SList.new 0 SReach.new
